import Mathlib

/-!
Shallow embedding of the go-semver library (package semver, single source file):
the SemVer value type, the renderer String, the parser Parse, the comparator
Compare and the sorter Sort, together with proofs about them.

Go strings are modelled as List Char.  All characters handled by the library are
ASCII, where Go byte-wise string order and Char-wise order coincide.
-/

/-- Shorthand turning a Lean string literal into the List Char model of a Go string. -/
def str (s : String) : List Char := s.data

/-- A decimal digit test: source line 122 and strconv.ParseUint digit handling,
both check a character c against the range from 0 to 9. -/
def isDigitChar (c : Char) : Bool := '0' ≤ c && c ≤ '9'

/-- The Go character class check of source lines 122 and 140: ASCII alphanumerics
and the hyphen. -/
def isIdentChar (c : Char) : Bool :=
  (('0' ≤ c && c ≤ '9') || ('a' ≤ c && c ≤ 'z') || ('A' ≤ c && c ≤ 'Z') || c = '-')

/-- Numeric value of a digit character. -/
def digitVal (c : Char) : Nat := c.toNat - 48

/-- The number denoted by a big-endian string of decimal digit characters
(what strconv.ParseUint accumulates digit by digit). -/
def decValue (s : List Char) : Nat := s.foldl (fun a c => 10 * a + digitVal c) 0

/-- strconv.ParseUint(s, 10, 64), as called on source lines 114, 208 and 209
(and, via bitSize 0 = the platform word size of 64 bits, on lines 74, 81 and 88):
it yields the value of a non-empty all-digit string when that value fits in
64 bits, and an error (modelled as none) on an empty string, a non-digit
character, or 64-bit overflow.  Leading zeros are accepted by ParseUint itself. -/
def parseUint64 (s : List Char) : Option Nat :=
  if s = [] then none
  else if ¬ s.all isDigitChar then none
  else if 2 ^ 64 ≤ decValue s then none
  else some (decValue s)

/-- The digit character of a value below ten. -/
def digitChar (d : Nat) : Char := Char.ofNat (48 + d)

/-- Fuel-driven core of decimal rendering: the digits of n, most significant
first, empty at n = 0.  The fuel argument only makes the recursion structural;
any fuel at least n gives the same result. -/
def natToDecAux : Nat → Nat → List Char
  | 0, _ => []
  | fuel + 1, n => if n = 0 then [] else natToDecAux fuel (n / 10) ++ [digitChar (n % 10)]

/-- Decimal rendering of an unsigned integer, as produced for %d by
fmt.Sprintf on source line 23: no sign, no leading zeros, a single 0 for zero. -/
def natToDec (n : Nat) : List Char := if n = 0 then ['0'] else natToDecAux n n

/-- The SemVer struct of source lines 12 to 18.  Go uint is 64 bits on the
platforms the library targets; its values are modelled as Nat, with the 64-bit
range entering through parseUint64 and through validity hypotheses. -/
structure SemVer where
  Major : Nat
  Minor : Nat
  Patch : Nat
  PreRelease : List Char
  Build : List Char
deriving DecidableEq, Repr

/-- The String method of source lines 21 to 36: the version core joined with
dots, then the pre-release after a hyphen when non-empty, then the build
metadata after a plus when non-empty. -/
def SemVer.String (s : SemVer) : List Char :=
  (natToDec s.Major ++ '.' :: natToDec s.Minor ++ '.' :: natToDec s.Patch)
  ++ (if s.PreRelease ≠ [] then '-' :: s.PreRelease else [])
  ++ (if s.Build ≠ [] then '+' :: s.Build else [])

/-- The IsRelease method of source lines 40 to 42. -/
def SemVer.IsRelease (s : SemVer) : Bool := s.PreRelease = []

/-- strings.SplitN(s, sep, 2) for a one-character separator: none when the
separator does not occur, otherwise the part before its first occurrence and
the part after it. -/
def splitFirst (sep : Char) : List Char → Option (List Char × List Char)
  | [] => none
  | c :: cs =>
    if c = sep then some ([], cs)
    else
      match splitFirst sep cs with
      | none => none
      | some (l, r) => some (c :: l, r)

/-- Source lines 50 to 51: the part of the tag before the first plus sign
(the whole tag when there is none). -/
def versionPartOf (tag : List Char) : List Char :=
  match splitFirst '+' tag with
  | none => tag
  | some (l, _) => l

/-- Source lines 54 to 56: the build section, present exactly when the tag
contains a plus sign (it may then be empty). -/
def buildSecOf (tag : List Char) : Option (List Char) :=
  (splitFirst '+' tag).map (fun p => p.2)

/-- Source lines 59 to 60: the version core, the part of versionPartOf before
its first hyphen. -/
def coreOf (tag : List Char) : List Char :=
  match splitFirst '-' (versionPartOf tag) with
  | none => versionPartOf tag
  | some (l, _) => l

/-- Source lines 63 to 65: the pre-release section, present exactly when
versionPartOf contains a hyphen (it may then be empty). -/
def preSecOf (tag : List Char) : Option (List Char) :=
  (splitFirst '-' (versionPartOf tag)).map (fun p => p.2)

/-- The failure cases of Parse; one constructor per fmt.Errorf site, in source
order: invalid version format (line 70), invalid major, minor or patch version
(lines 76, 83, 90), leading zeros in the core (lines 96, 99, 102), empty,
leading-zero or invalid-character pre-release identifiers (lines 110, 117, 123)
and empty or invalid-character build identifiers (lines 135, 141). -/
inductive ParseError where
  | invalidFormat (core : List Char)
  | invalidMajor (s : List Char)
  | invalidMinor (s : List Char)
  | invalidPatch (s : List Char)
  | majorLeadingZero (s : List Char)
  | minorLeadingZero (s : List Char)
  | patchLeadingZero (s : List Char)
  | preEmptyIdentifier
  | preLeadingZero (part : List Char)
  | preInvalidChar (part : List Char)
  | buildEmptyIdentifier
  | buildInvalidChar (part : List Char)
deriving DecidableEq, Repr

/-- Source lines 68 to 103: split the version core on dots, require exactly
three parts, parse each with ParseUint, then reject leading zeros
(strings.HasPrefix(s, "0") is the head check, s != "0" the singleton check). -/
def parseCore (core : List Char) : Except ParseError (Nat × Nat × Nat) :=
  match core.splitOn '.' with
  | [p0, p1, p2] =>
    match parseUint64 p0 with
    | none => .error (.invalidMajor p0)
    | some major =>
      match parseUint64 p1 with
      | none => .error (.invalidMinor p1)
      | some minor =>
        match parseUint64 p2 with
        | none => .error (.invalidPatch p2)
        | some patch =>
          if p0 ≠ ['0'] ∧ p0.head? = some '0' then .error (.majorLeadingZero p0)
          else if p1 ≠ ['0'] ∧ p1.head? = some '0' then .error (.minorLeadingZero p1)
          else if p2 ≠ ['0'] ∧ p2.head? = some '0' then .error (.patchLeadingZero p2)
          else .ok (major, minor, patch)
  | parts => .error (.invalidFormat ([Char.ofNat 46].intercalate parts))

/-- Source lines 107 to 127: validate the dot-split pre-release parts in order;
an empty part fails, a part accepted by ParseUint fails on a leading zero
(unless it is the single digit 0), any other part fails on a character outside
the identifier class.  The Go loop stops at the first failing part; the
character loop of lines 121 to 125 is equivalent to the all-characters check
because the reported error carries only the part. -/
def validatePreParts : List (List Char) → Option ParseError
  | [] => none
  | part :: rest =>
    if part = [] then some .preEmptyIdentifier
    else
      match parseUint64 part with
      | some _ =>
        if part ≠ ['0'] ∧ part.head? = some '0' then some (.preLeadingZero part)
        else validatePreParts rest
      | none =>
        if part.all isIdentChar then validatePreParts rest
        else some (.preInvalidChar part)

/-- Source lines 131 to 145: validate the dot-split build parts in order; an
empty part fails, and every character must lie in the identifier class. -/
def validateBuildParts : List (List Char) → Option ParseError
  | [] => none
  | part :: rest =>
    if part = [] then some .buildEmptyIdentifier
    else if part.all isIdentChar then validateBuildParts rest
    else some (.buildInvalidChar part)

/-- The Parse function of source lines 46 to 148: segmentation on the first
plus and the first hyphen, core parsing, then pre-release and build validation,
each section validated only when its recorded field is non-empty (the guards of
lines 106 and 131). -/
def Parse (tag : List Char) : Except ParseError SemVer :=
  let build := (buildSecOf tag).getD []
  let preRelease := (preSecOf tag).getD []
  match parseCore (coreOf tag) with
  | .error e => .error e
  | .ok (major, minor, patch) =>
    match (if preRelease ≠ [] then validatePreParts (preRelease.splitOn '.') else none) with
    | some e => .error e
    | none =>
      match (if build ≠ [] then validateBuildParts (build.splitOn '.') else none) with
      | some e => .error e
      | none => .ok ⟨major, minor, patch, preRelease, build⟩

/-- Go byte-wise string comparison (the operators on source lines 221 and 224),
as a three-valued result: -1, 0 or 1.  On the ASCII data of this library,
byte order and Char order agree. -/
def cmpStr : List Char → List Char → Int
  | [], [] => 0
  | [], _ :: _ => -1
  | _ :: _, [] => 1
  | a :: as, b :: bs => if a < b then -1 else if b < a then 1 else cmpStr as bs

/-- The per-identifier comparison of the loop body on source lines 203 to 235:
both ParseUint-numeric means unsigned comparison, neither means byte-wise
string comparison, and a numeric identifier is below a non-numeric one. -/
def cmpIdent (sPart otherPart : List Char) : Int :=
  match parseUint64 sPart, parseUint64 otherPart with
  | some sNum, some otherNum =>
    if sNum < otherNum then -1 else if otherNum < sNum then 1 else 0
  | none, none => cmpStr sPart otherPart
  | some _, none => -1
  | none, some _ => 1

/-- The pre-release list comparison of source lines 198 to 245: identifiers are
compared pairwise up to the shorter length (the Go loop continues exactly when
cmpIdent yields 0), after which the shorter list is smaller. -/
def cmpPreParts : List (List Char) → List (List Char) → Int
  | [], [] => 0
  | [], _ :: _ => -1
  | _ :: _, [] => 1
  | a :: as, b :: bs => if cmpIdent a b = 0 then cmpPreParts as bs else cmpIdent a b

/-- The Compare method of source lines 156 to 249: major, minor and patch
numerically, then absence of a pre-release wins, then the dot-split pre-release
identifier lists are compared. -/
def SemVer.Compare (s other : SemVer) : Int :=
  if s.Major < other.Major then -1
  else if other.Major < s.Major then 1
  else if s.Minor < other.Minor then -1
  else if other.Minor < s.Minor then 1
  else if s.Patch < other.Patch then -1
  else if other.Patch < s.Patch then 1
  else if s.PreRelease = [] ∧ other.PreRelease ≠ [] then 1
  else if s.PreRelease ≠ [] ∧ other.PreRelease = [] then -1
  else if s.PreRelease = [] ∧ other.PreRelease = [] then 0
  else cmpPreParts (s.PreRelease.splitOn '.') (other.PreRelease.splitOn '.')

/-- Modelled from the spec: the Sort function of source lines 252 to 256
delegates to sort.Slice of the Go standard library, whose code is not part of
this repository.  sort.Slice rearranges the slice in place, exclusively through
element swaps, until it is sorted with respect to the supplied ordering
function less i j = versions i Compare versions j less than 0; the spec notes
(its section 9) that the primitive is an unstable sort, so no property beyond
swap-reachability and sortedness is guaranteed.  SwapSeq is the reachability
relation generated by single swaps of two positions. -/
inductive SwapSeq : List SemVer → List SemVer → Prop where
  | refl (l : List SemVer) : SwapSeq l l
  | swap (l : List SemVer) (i j : Nat) (hi : i < l.length) (hj : j < l.length)
      (l' : List SemVer)
      (h : SwapSeq ((l.set i (l.get ⟨j, hj⟩)).set j (l.get ⟨i, hi⟩)) l') : SwapSeq l l'

/-- Modelled from the spec: the observable contract of Sort (source lines 252
to 256).  The output is reachable from the input by element swaps, and adjacent
output elements never satisfy the strict ordering in reverse, which is what
sorting with respect to less means for sort.Slice.  Stability is deliberately
not part of the model: the underlying primitive does not guarantee it. -/
def Sort' (input output : List SemVer) : Prop :=
  SwapSeq input output ∧
    List.Chain' (fun a b => ¬ (SemVer.Compare b a < 0)) output

/-- Spec section 4.1: a numeric identifier is a non-empty all-digit string that
is either the single digit 0 or has no leading zero.  Used only to state
data-model validity hypotheses; the code itself classifies through ParseUint. -/
def isNumericIdent (s : List Char) : Bool :=
  !s.isEmpty && s.all isDigitChar && (s == ['0'] || !(s.head? == some '0'))

/-- Spec section 4.1: an alphanumeric identifier is a non-empty string over the
identifier class with at least one non-digit. -/
def isAlphanumIdent (s : List Char) : Bool :=
  !s.isEmpty && s.all isIdentChar && s.any (fun c => !isDigitChar c)

/-- Spec section 4.1: a build identifier is a non-empty string over the
identifier class, with no leading-zero restriction. -/
def isBuildIdent (s : List Char) : Bool :=
  !s.isEmpty && s.all isIdentChar

/-- The data-model invariants of spec section 3 for a structured version value:
core numbers in the 64-bit unsigned range of the Go uint fields, the
pre-release absent or a dot-joined sequence of numeric or alphanumeric
identifiers, the build absent or a dot-joined sequence of build identifiers. -/
def ValidSemVer (v : SemVer) : Prop :=
  v.Major < 2 ^ 64 ∧ v.Minor < 2 ^ 64 ∧ v.Patch < 2 ^ 64 ∧
  (v.PreRelease = [] ∨
    ∀ p ∈ v.PreRelease.splitOn '.', (isNumericIdent p || isAlphanumIdent p) = true) ∧
  (v.Build = [] ∨ ∀ p ∈ v.Build.splitOn '.', isBuildIdent p = true)

/-! ### The comparison through order keys -/

/-- The classification Compare applies to each pre-release identifier: a value
when ParseUint accepts it, the raw string otherwise. -/
def identKey (s : List Char) : Nat ⊕ List Char :=
  match parseUint64 s with
  | some v => Sum.inl v
  | none => Sum.inr s

/-- Comparison of two identifier keys. -/
def cmpKey : Nat ⊕ List Char → Nat ⊕ List Char → Int
  | Sum.inl x, Sum.inl y => if x < y then -1 else if y < x then 1 else 0
  | Sum.inl _, Sum.inr _ => -1
  | Sum.inr _, Sum.inl _ => 1
  | Sum.inr x, Sum.inr y => cmpStr x y

/-- Lexicographic comparison of two key lists, shorter list first. -/
def cmpKeyList : List (Nat ⊕ List Char) → List (Nat ⊕ List Char) → Int
  | [], [] => 0
  | [], _ :: _ => -1
  | _ :: _, [] => 1
  | x :: xs, y :: ys => if cmpKey x y = 0 then cmpKeyList xs ys else cmpKey x y

/-- The pre-release level of the comparison: an absent pre-release outranks any
present one; two present ones are compared through their key lists. -/
def cmpPreKey : Option (List (Nat ⊕ List Char)) → Option (List (Nat ⊕ List Char)) → Int
  | none, none => 0
  | none, some _ => 1
  | some _, none => -1
  | some xs, some ys => cmpKeyList xs ys

/-- The pre-release key of a version: none when absent, the keys of the
dot-split identifiers otherwise. -/
def preKey (pre : List Char) : Option (List (Nat ⊕ List Char)) :=
  if pre = [] then none else some ((pre.splitOn '.').map identKey)

/-- The full order key of a version.  The Build field does not occur in it. -/
def vkey (v : SemVer) : Nat × Nat × Nat × Option (List (Nat ⊕ List Char)) :=
  (v.Major, v.Minor, v.Patch, preKey v.PreRelease)

/-- Comparison of two full version keys. -/
def cmpVKey (a b : Nat × Nat × Nat × Option (List (Nat ⊕ List Char))) : Int :=
  if a.1 < b.1 then -1
  else if b.1 < a.1 then 1
  else if a.2.1 < b.2.1 then -1
  else if b.2.1 < a.2.1 then 1
  else if a.2.2.1 < b.2.2.1 then -1
  else if b.2.2.1 < a.2.2.1 then 1
  else cmpPreKey a.2.2.2 b.2.2.2

/-- The three defining properties of a strict three-valued comparison that is
zero exactly on equal arguments. -/
structure IsCmp {α : Type} (f : α → α → Int) : Prop where
  shape : ∀ a b, f a b = -1 ∨ f a b = 0 ∨ f a b = 1
  zero_iff : ∀ a b, f a b = 0 ↔ a = b
  neg : ∀ a b, f a b = -f b a
  lt_trans : ∀ a b c, f a b = -1 → f b c = -1 → f a c = -1

/-- Lexicographic composition of two three-valued comparisons on a pair. -/
def lexInt {α β : Type} (f : α → α → Int) (g : β → β → Int) (p q : α × β) : Int :=
  if f p.1 q.1 = 0 then g p.2 q.2 else f p.1 q.1

/-- Three-valued comparison of unsigned integers, the pattern of source lines
157 to 179. -/
def cmpNat (x y : Nat) : Int := if x < y then -1 else if y < x then 1 else 0


/-! ### Digit characters and decimal values -/

theorem digitVal_digitChar {d : Nat} (h : d < 10) : digitVal (digitChar d) = d := by
  interval_cases d <;> decide

theorem digitChar_digitVal {c : Char} (h : isDigitChar c = true) :
    digitChar (digitVal c) = c := by
  simp only [isDigitChar, Bool.and_eq_true, decide_eq_true_eq] at h
  have h48 : 48 ≤ c.toNat := by simpa [Char.le_def, Char.toNat] using h.1
  simp only [digitChar, digitVal]
  rw [Nat.add_sub_cancel' h48, Char.ofNat_toNat]

theorem digitVal_lt_ten {c : Char} (h : isDigitChar c = true) : digitVal c < 10 := by
  simp only [isDigitChar, Bool.and_eq_true, decide_eq_true_eq] at h
  have h57 : c.toNat ≤ 57 := by simpa [Char.le_def, Char.toNat] using h.2
  simp only [digitVal]
  omega

theorem isDigitChar_digitChar {d : Nat} (h : d < 10) : isDigitChar (digitChar d) = true := by
  interval_cases d <;> decide

theorem digitChar_ne_zero {d : Nat} (hd : d < 10) (h : d ≠ 0) : digitChar d ≠ '0' := by
  interval_cases d <;> simp_all <;> decide

theorem one_le_digitVal {c : Char} (h : isDigitChar c = true) (h0 : c ≠ '0') :
    1 ≤ digitVal c := by
  have h1 : digitChar (digitVal c) = c := digitChar_digitVal h
  by_contra hlt
  have hz : digitVal c = 0 := Nat.eq_zero_of_not_pos hlt
  rw [hz] at h1
  exact h0 (h1 ▸ rfl)

theorem decValue_snoc (xs : List Char) (c : Char) :
    decValue (xs ++ [c]) = 10 * decValue xs + digitVal c := by
  simp [decValue, List.foldl_append]

theorem decValue_foldl_pos {a : Nat} (ha : 1 ≤ a) (l : List Char) :
    1 ≤ l.foldl (fun a c => 10 * a + digitVal c) a := by
  induction l generalizing a with
  | nil => exact ha
  | cons c cs ih =>
    simp only [List.foldl_cons]
    apply ih
    omega

theorem one_le_decValue {s : List Char} (hne : s ≠ [])
    (hd : s.all isDigitChar = true) (h0 : s.head? ≠ some '0') : 1 ≤ decValue s := by
  match s, hne with
  | c :: cs, _ =>
    have hc : isDigitChar c = true := by
      simp only [List.all_cons, Bool.and_eq_true] at hd; exact hd.1
    have : c ≠ '0' := by simpa using h0
    have h1 : 1 ≤ digitVal c := one_le_digitVal hc this
    simpa [decValue] using decValue_foldl_pos (a := digitVal c) h1 cs

/-! ### Decimal rendering -/

theorem natToDecAux_zero (fuel : Nat) : natToDecAux fuel 0 = [] := by
  cases fuel <;> simp [natToDecAux]

theorem natToDecAux_congr :
    ∀ (n f₁ f₂ : Nat), n ≤ f₁ → n ≤ f₂ → natToDecAux f₁ n = natToDecAux f₂ n := by
  intro n
  induction n using Nat.strong_induction_on with
  | _ n ih =>
    intro f₁ f₂ h₁ h₂
    rcases Nat.eq_zero_or_pos n with hn | hn
    · subst hn; rw [natToDecAux_zero, natToDecAux_zero]
    · obtain ⟨g₁, rfl⟩ : ∃ g, f₁ = g + 1 := ⟨f₁ - 1, by omega⟩
      obtain ⟨g₂, rfl⟩ : ∃ g, f₂ = g + 1 := ⟨f₂ - 1, by omega⟩
      have hlt : n / 10 < n := Nat.div_lt_self hn (by omega)
      simp only [natToDecAux, if_neg (by omega : ¬ n = 0)]
      rw [ih (n / 10) hlt g₁ g₂ (by omega) (by omega)]

theorem natToDec_lt_ten {d : Nat} (h : d < 10) : natToDec d = [digitChar d] := by
  rcases Nat.eq_zero_or_pos d with rfl | hd
  · rfl
  · obtain ⟨e, rfl⟩ : ∃ e, d = e + 1 := ⟨d - 1, by omega⟩
    simp only [natToDec, if_neg (by omega : ¬ e + 1 = 0), natToDecAux,
      if_neg (by omega : ¬ e + 1 = 0)]
    rw [Nat.div_eq_of_lt h, natToDecAux_zero, Nat.mod_eq_of_lt h, List.nil_append]

theorem natToDec_step {m d : Nat} (hm : 1 ≤ m) (hd : d < 10) :
    natToDec (10 * m + d) = natToDec m ++ [digitChar d] := by
  have hn : 10 * m + d ≠ 0 := by omega
  obtain ⟨g, hg⟩ : ∃ g, 10 * m + d = g + 1 := ⟨10 * m + d - 1, by omega⟩
  have hdiv : (10 * m + d) / 10 = m := by omega
  have hmod : (10 * m + d) % 10 = d := by omega
  simp only [natToDec, if_neg hn, if_neg (by omega : ¬ m = 0)]
  rw [hg]
  simp only [natToDecAux, if_neg (by omega : ¬ g + 1 = 0)]
  rw [← hg, hdiv, hmod, natToDecAux_congr m g m (by omega) le_rfl]

theorem decValue_natToDec : ∀ n : Nat, decValue (natToDec n) = n := by
  intro n
  induction n using Nat.strong_induction_on with
  | _ n ih =>
    rcases Nat.lt_or_ge n 10 with h | h
    · rw [natToDec_lt_ten h]
      simpa [decValue] using digitVal_digitChar h
    · have hm : 1 ≤ n / 10 := by omega
      have := natToDec_step hm (Nat.mod_lt n (by omega))
      rw [show 10 * (n / 10) + n % 10 = n by omega] at this
      rw [this, decValue_snoc, ih (n / 10) (by omega),
        digitVal_digitChar (Nat.mod_lt n (by omega))]
      omega

theorem natToDec_ne_nil (n : Nat) : natToDec n ≠ [] := by
  rcases Nat.lt_or_ge n 10 with h | h
  · rw [natToDec_lt_ten h]; simp
  · have hm : 1 ≤ n / 10 := by omega
    have := natToDec_step hm (Nat.mod_lt n (by omega))
    rw [show 10 * (n / 10) + n % 10 = n by omega] at this
    simp [this]

theorem natToDec_all_digits : ∀ n : Nat, (natToDec n).all isDigitChar = true := by
  intro n
  induction n using Nat.strong_induction_on with
  | _ n ih =>
    rcases Nat.lt_or_ge n 10 with h | h
    · rw [natToDec_lt_ten h]
      simp [isDigitChar_digitChar h]
    · have := natToDec_step (by omega : 1 ≤ n / 10) (Nat.mod_lt n (by omega))
      rw [show 10 * (n / 10) + n % 10 = n by omega] at this
      rw [this]
      simp [ih (n / 10) (by omega), isDigitChar_digitChar (Nat.mod_lt n (by omega))]

theorem natToDec_head_ne_zero : ∀ n : Nat, n ≠ 0 → (natToDec n).head? ≠ some '0' := by
  intro n
  induction n using Nat.strong_induction_on with
  | _ n ih =>
    intro hn
    rcases Nat.lt_or_ge n 10 with h | h
    · rw [natToDec_lt_ten h]
      simpa using digitChar_ne_zero h hn
    · have := natToDec_step (by omega : 1 ≤ n / 10) (Nat.mod_lt n (by omega))
      rw [show 10 * (n / 10) + n % 10 = n by omega] at this
      rw [this, List.head?_append_of_ne_nil _ (natToDec_ne_nil _)]
      exact ih (n / 10) (by omega) (by omega)

theorem natToDec_canonical : ∀ s : List Char, s ≠ [] → s.all isDigitChar = true →
    (s.head? = some '0' → s = ['0']) → natToDec (decValue s) = s := by
  intro s
  induction s using List.reverseRecOn with
  | nil => intro h; exact absurd rfl h
  | append_singleton xs c ih =>
    intro _ hd hcan
    have hc : isDigitChar c = true := by
      simp only [List.all_append, List.all_cons, List.all_nil, Bool.and_eq_true] at hd
      exact hd.2.1
    rcases eq_or_ne xs [] with rfl | hxs
    · simp only [List.nil_append]
      rw [show decValue [c] = digitVal c by simp [decValue],
        natToDec_lt_ten (digitVal_lt_ten hc), digitChar_digitVal hc]
    · have hdx : xs.all isDigitChar = true := by
        simp only [List.all_append, Bool.and_eq_true] at hd
        exact hd.1
      have hhead : xs.head? ≠ some '0' := by
        intro h0
        have h1 : (xs ++ [c]).head? = some '0' := by
          rw [List.head?_append_of_ne_nil _ hxs]; exact h0
        have h2 := hcan h1
        have hlen := congrArg List.length h2
        simp only [List.length_append, List.length_cons, List.length_nil] at hlen
        exact hxs (List.eq_nil_of_length_eq_zero (by omega))
      rw [decValue_snoc, natToDec_step (one_le_decValue hxs hdx hhead) (digitVal_lt_ten hc),
        ih hxs hdx (fun h0 => absurd h0 hhead), digitChar_digitVal hc]

theorem parseUint64_eq_some {s : List Char} {v : Nat} :
    parseUint64 s = some v ↔
      s ≠ [] ∧ s.all isDigitChar = true ∧ decValue s < 2 ^ 64 ∧ v = decValue s := by
  simp only [parseUint64]
  split_ifs with h1 h2 h3 <;> simp_all <;> omega

theorem parseUint64_eq_none {s : List Char} :
    parseUint64 s = none ↔ s = [] ∨ ¬ s.all isDigitChar = true ∨ 2 ^ 64 ≤ decValue s := by
  simp only [parseUint64]
  split_ifs with h1 h2 h3 <;> simp_all

theorem parseUint64_natToDec {n : Nat} (h : n < 2 ^ 64) :
    parseUint64 (natToDec n) = some n :=
  parseUint64_eq_some.mpr ⟨natToDec_ne_nil n, natToDec_all_digits n,
    by rw [decValue_natToDec]; exact h, (decValue_natToDec n).symm⟩

/-- A part that ParseUint accepts and that passes the leading-zero test of the
source is exactly the canonical rendering of its value. -/
theorem natToDec_of_parsed {p : List Char} {v : Nat} (h : parseUint64 p = some v)
    (hlz : ¬ (p ≠ ['0'] ∧ p.head? = some '0')) : natToDec v = p := by
  obtain ⟨hne, hd, _, rfl⟩ := parseUint64_eq_some.mp h
  refine natToDec_canonical p hne hd ?_
  intro h0
  by_contra hp
  exact hlz ⟨hp, h0⟩

/-! ### Facts about splitFirst and splitOn -/

theorem splitFirst_eq_none {sep : Char} :
    ∀ {s : List Char}, splitFirst sep s = none ↔ sep ∉ s := by
  intro s
  induction s with
  | nil => simp [splitFirst]
  | cons c cs ih =>
    simp only [splitFirst]
    rcases eq_or_ne c sep with rfl | hc
    · simp
    · rw [if_neg hc]
      cases h : splitFirst sep cs with
      | none =>
        simp only [List.mem_cons, not_or]
        exact iff_of_true trivial ⟨fun hh => hc hh.symm, ih.mp h⟩
      | some p =>
        simp only [List.mem_cons]
        constructor
        · intro hfalse
          cases hfalse
        · intro hnot
          exfalso
          have : sep ∈ cs := by
            by_contra hni
            rw [ih.mpr hni] at h
            cases h
          exact hnot (Or.inr this)

theorem splitFirst_eq_some {sep : Char} :
    ∀ {s l r : List Char}, splitFirst sep s = some (l, r) → s = l ++ sep :: r ∧ sep ∉ l := by
  intro s
  induction s with
  | nil => intro l r h; cases h
  | cons c cs ih =>
    intro l r h
    simp only [splitFirst] at h
    rcases eq_or_ne c sep with rfl | hc
    · rw [if_pos rfl] at h
      cases h
      simp
    · rw [if_neg hc] at h
      cases hcs : splitFirst sep cs with
      | none => rw [hcs] at h; cases h
      | some p =>
        rw [hcs] at h
        obtain ⟨l', r'⟩ := p
        cases h
        obtain ⟨hs, hni⟩ := ih hcs
        constructor
        · rw [hs]; rfl
        · simp only [List.mem_cons]
          rintro (rfl | hmem)
          · exact hc rfl
          · exact hni hmem

theorem splitFirst_append {sep : Char} {l r : List Char} (h : sep ∉ l) :
    splitFirst sep (l ++ sep :: r) = some (l, r) := by
  induction l with
  | nil => simp [splitFirst]
  | cons c cs ih =>
    have hc : c ≠ sep := by
      intro hc
      exact h (by simp [hc])
    have hcs : sep ∉ cs := fun hm => h (List.mem_cons_of_mem _ hm)
    simp only [List.cons_append, splitFirst, List.append_eq, if_neg hc, ih hcs]

theorem splitOn_eq_single {c : Char} {s : List Char} (h : c ∉ s) : s.splitOn c = [s] :=
  List.splitOnP_eq_single _ _ (fun x hx hpx => h (by rw [eq_of_beq hpx] at hx; exact hx))

theorem splitOn_append_cons {c : Char} {xs : List Char} (h : c ∉ xs) (as : List Char) :
    (xs ++ c :: as).splitOn c = xs :: as.splitOn c :=
  List.splitOnP_first _ _ (fun x hx hpx => h (by rw [eq_of_beq hpx] at hx; exact hx)) c
    (by simp) as

theorem intercalate_three (x : Char) (a b c : List Char) :
    [x].intercalate [a, b, c] = a ++ x :: (b ++ x :: c) := by
  simp [List.intercalate, List.intersperse]

/-! ### Swaps only permute -/

theorem get_cons_set_perm {α : Type} :
    ∀ (t : List α) (m : Nat) (hm : m < t.length) (a : α),
      List.Perm (t.get ⟨m, hm⟩ :: t.set m a) (a :: t) := by
  intro t
  induction t with
  | nil => intro m hm; cases hm
  | cons c t' ih =>
    intro m hm a
    cases m with
    | zero => exact List.Perm.swap a c t'
    | succ k =>
      have hk : k < t'.length := by simpa using hm
      exact ((List.Perm.swap c _ _).trans ((ih k hk a).cons c)).trans (List.Perm.swap a c t')

theorem swap_set_perm {α : Type} :
    ∀ (l : List α) (i j : Nat) (hi : i < l.length) (hj : j < l.length),
      List.Perm ((l.set i (l.get ⟨j, hj⟩)).set j (l.get ⟨i, hi⟩)) l := by
  intro l
  induction l with
  | nil => intro i j hi; cases hi
  | cons a t ih =>
    intro i j hi hj
    cases i with
    | zero =>
      cases j with
      | zero => exact List.Perm.refl _
      | succ m =>
        have hm : m < t.length := by simpa using hj
        exact get_cons_set_perm t m hm a
    | succ n =>
      have hn : n < t.length := by simpa using hi
      cases j with
      | zero => exact get_cons_set_perm t n hn a
      | succ m =>
        have hm : m < t.length := by simpa using hj
        exact List.Perm.cons a (ih n m hn hm)

theorem swapSeq_perm {l l' : List SemVer} (h : SwapSeq l l') : List.Perm l l' := by
  induction h with
  | refl l => exact List.Perm.refl l
  | swap l i j hi hj l' _ ih => exact ((swap_set_perm l i j hi hj).symm.trans ih)

theorem cmpStr_shape : ∀ a b : List Char, cmpStr a b = -1 ∨ cmpStr a b = 0 ∨ cmpStr a b = 1 := by
  intro a
  induction a with
  | nil => intro b; cases b <;> simp [cmpStr]
  | cons x xs ih =>
    intro b
    cases b with
    | nil => simp [cmpStr]
    | cons y ys =>
      simp only [cmpStr]
      split_ifs <;> simp [ih ys]

theorem cmpStr_eq_zero_iff : ∀ a b : List Char, cmpStr a b = 0 ↔ a = b := by
  intro a
  induction a with
  | nil => intro b; cases b <;> simp [cmpStr]
  | cons x xs ih =>
    intro b
    cases b with
    | nil => simp [cmpStr]
    | cons y ys =>
      simp only [cmpStr]
      rcases lt_trichotomy x y with h | h | h
      · rw [if_pos h]
        constructor
        · intro hc; exact absurd hc (by decide)
        · intro hc; cases hc; exact absurd h (lt_irrefl _)
      · subst h
        simp only [if_neg (lt_irrefl x)]
        simp [ih ys]
      · rw [if_neg (asymm h), if_pos h]
        constructor
        · intro hc; exact absurd hc (by decide)
        · intro hc; cases hc; exact absurd h (lt_irrefl _)

theorem cmpStr_neg : ∀ a b : List Char, cmpStr a b = -cmpStr b a := by
  intro a
  induction a with
  | nil => intro b; cases b <;> simp [cmpStr]
  | cons x xs ih =>
    intro b
    cases b with
    | nil => simp [cmpStr]
    | cons y ys =>
      simp only [cmpStr]
      rcases lt_trichotomy x y with h | h | h
      · rw [if_pos h, if_neg (asymm h), if_pos h]
      · subst h
        simp only [if_neg (lt_irrefl x)]
        exact ih ys
      · rw [if_neg (asymm h), if_pos h, if_pos h]
        decide

theorem cmpStr_lt_trans :
    ∀ a b c : List Char, cmpStr a b = -1 → cmpStr b c = -1 → cmpStr a c = -1 := by
  intro a
  induction a with
  | nil =>
    intro b c hab hbc
    cases b with
    | nil => simp [cmpStr] at hab
    | cons y ys =>
      cases c with
      | nil => simp [cmpStr] at hbc
      | cons z zs => simp [cmpStr]
  | cons x xs ih =>
    intro b c hab hbc
    cases b with
    | nil => simp [cmpStr] at hab
    | cons y ys =>
      cases c with
      | nil => simp [cmpStr] at hbc
      | cons z zs =>
        simp only [cmpStr] at hab hbc ⊢
        rcases lt_trichotomy x y with hxy | hxy | hxy
        · rcases lt_trichotomy y z with hyz | hyz | hyz
          · rw [if_pos (hxy.trans hyz)]
          · subst hyz; rw [if_pos hxy]
          · rw [if_neg (asymm hyz), if_pos hyz] at hbc; cases hbc
        · subst hxy
          rw [if_neg (lt_irrefl x), if_neg (lt_irrefl x)] at hab
          rcases lt_trichotomy x z with hxz | hxz | hxz
          · rw [if_pos hxz]
          · subst hxz
            rw [if_neg (lt_irrefl x), if_neg (lt_irrefl x)] at hbc ⊢
            exact ih ys zs hab hbc
          · rw [if_neg (asymm hxz), if_pos hxz] at hbc; cases hbc
        · rw [if_neg (asymm hxy), if_pos hxy] at hab; cases hab

theorem cmpStr_isCmp : IsCmp cmpStr :=
  ⟨cmpStr_shape, cmpStr_eq_zero_iff, cmpStr_neg, cmpStr_lt_trans⟩

theorem cmpKey_isCmp : IsCmp cmpKey := by
  constructor
  · intro a b
    cases a with
    | inl x =>
      cases b with
      | inl y => simp only [cmpKey]; split_ifs <;> simp
      | inr y => simp [cmpKey]
    | inr x =>
      cases b with
      | inl y => simp [cmpKey]
      | inr y => exact cmpStr_shape x y
  · intro a b
    cases a with
    | inl x =>
      cases b with
      | inl y =>
        simp only [cmpKey, Sum.inl.injEq]
        split_ifs with h1 h2
        · constructor
          · intro hc; exact absurd hc (by decide)
          · intro hc; omega
        · constructor
          · intro hc; exact absurd hc (by decide)
          · intro hc; omega
        · constructor
          · intro _; omega
          · intro _; rfl
      | inr y => simp [cmpKey]
    | inr x =>
      cases b with
      | inl y => simp [cmpKey]
      | inr y =>
        rw [show cmpKey (Sum.inr x) (Sum.inr y) = cmpStr x y from rfl, cmpStr_eq_zero_iff]
        simp
  · intro a b
    cases a with
    | inl x =>
      cases b with
      | inl y => simp only [cmpKey]; split_ifs <;> omega
      | inr y => norm_num [cmpKey]
    | inr x =>
      cases b with
      | inl y => norm_num [cmpKey]
      | inr y => exact cmpStr_neg x y
  · intro a b c hab hbc
    cases a with
    | inl x =>
      cases b with
      | inl y =>
        cases c with
        | inl z =>
          simp only [cmpKey] at hab hbc ⊢
          split_ifs at hab hbc ⊢ <;> omega
        | inr z => rfl
      | inr y =>
        cases c with
        | inl z => exact absurd hbc (by simp [cmpKey])
        | inr z => rfl
    | inr x =>
      cases b with
      | inl y => exact absurd hab (by simp [cmpKey])
      | inr y =>
        cases c with
        | inl z => exact absurd hbc (by simp [cmpKey])
        | inr z => exact cmpStr_lt_trans x y z hab hbc

theorem cmpKeyList_isCmp : IsCmp cmpKeyList := by
  constructor
  · intro a
    induction a with
    | nil => intro b; cases b <;> simp [cmpKeyList]
    | cons x xs ih =>
      intro b
      cases b with
      | nil => simp [cmpKeyList]
      | cons y ys =>
        simp only [cmpKeyList]
        split_ifs <;> first | exact ih ys | exact cmpKey_isCmp.shape x y
  · intro a
    induction a with
    | nil => intro b; cases b <;> simp [cmpKeyList]
    | cons x xs ih =>
      intro b
      cases b with
      | nil => simp [cmpKeyList]
      | cons y ys =>
        simp only [cmpKeyList]
        split_ifs with h
        · rw [ih ys]
          have := (cmpKey_isCmp.zero_iff x y).mp h
          simp [this]
        · constructor
          · intro hc; exact absurd hc h
          · intro hc
            cases hc
            exact absurd ((cmpKey_isCmp.zero_iff x x).mpr rfl) h
  · intro a
    induction a with
    | nil => intro b; cases b <;> simp [cmpKeyList]
    | cons x xs ih =>
      intro b
      cases b with
      | nil => simp [cmpKeyList]
      | cons y ys =>
        simp only [cmpKeyList]
        by_cases h : cmpKey x y = 0
        · have h' : cmpKey y x = 0 := by
            rw [cmpKey_isCmp.neg]; omega
          rw [if_pos h, if_pos h']
          exact ih ys
        · have h' : ¬ cmpKey y x = 0 := by
            rw [cmpKey_isCmp.neg]; omega
          rw [if_neg h, if_neg h']
          exact cmpKey_isCmp.neg x y
  · intro a
    induction a with
    | nil =>
      intro b c hab hbc
      cases b with
      | nil => simp [cmpKeyList] at hab
      | cons y ys =>
        cases c with
        | nil => simp [cmpKeyList] at hbc
        | cons z zs => simp [cmpKeyList]
    | cons x xs ih =>
      intro b c hab hbc
      cases b with
      | nil => simp [cmpKeyList] at hab
      | cons y ys =>
        cases c with
        | nil => simp [cmpKeyList] at hbc
        | cons z zs =>
          simp only [cmpKeyList] at hab hbc ⊢
          by_cases hxy : cmpKey x y = 0
          · have exy := (cmpKey_isCmp.zero_iff x y).mp hxy
            subst exy
            rw [if_pos hxy] at hab
            by_cases hyz : cmpKey x z = 0
            · rw [if_pos hyz] at hbc ⊢
              exact ih ys zs hab hbc
            · rw [if_neg hyz] at hbc ⊢
              exact hbc
          · rw [if_neg hxy] at hab
            by_cases hyz : cmpKey y z = 0
            · have eyz := (cmpKey_isCmp.zero_iff y z).mp hyz
              subst eyz
              rw [if_neg hxy]
              exact hab
            · rw [if_neg hyz] at hbc
              have hxz : cmpKey x z = -1 := cmpKey_isCmp.lt_trans x y z hab hbc
              rw [if_neg (by omega : ¬ cmpKey x z = 0)]
              exact hxz

theorem cmpPreKey_isCmp : IsCmp cmpPreKey := by
  constructor
  · intro a b
    cases a <;> cases b <;> simp [cmpPreKey, cmpKeyList_isCmp.shape]
  · intro a b
    cases a <;> cases b <;> simp [cmpPreKey, cmpKeyList_isCmp.zero_iff]
  · intro a b
    cases a with
    | none =>
      cases b with
      | none => rfl
      | some ys => norm_num [cmpPreKey]
    | some xs =>
      cases b with
      | none => norm_num [cmpPreKey]
      | some ys => exact cmpKeyList_isCmp.neg xs ys
  · intro a b c hab hbc
    cases b with
    | none =>
      cases c with
      | none => exact absurd hbc (by simp [cmpPreKey])
      | some zs => exact absurd hbc (by simp [cmpPreKey])
    | some ys =>
      cases a with
      | none => exact absurd hab (by simp [cmpPreKey])
      | some xs =>
        cases c with
        | none => rfl
        | some zs => exact cmpKeyList_isCmp.lt_trans xs ys zs hab hbc

theorem IsCmp.lex {α β : Type} {f : α → α → Int} {g : β → β → Int}
    (hf : IsCmp f) (hg : IsCmp g) : IsCmp (lexInt f g) := by
  constructor
  · intro a b
    simp only [lexInt]
    split_ifs with h
    · exact hg.shape a.2 b.2
    · rcases hf.shape a.1 b.1 with h1 | h1 | h1
      · simp [h1]
      · exact absurd h1 h
      · simp [h1]
  · intro a b
    simp only [lexInt]
    split_ifs with h
    · rw [hg.zero_iff]
      have h1 := (hf.zero_iff a.1 b.1).mp h
      constructor
      · intro h2; exact Prod.ext h1 h2
      · intro h2; rw [h2]
    · constructor
      · intro h2; exact absurd h2 h
      · intro h2
        rw [h2] at h
        exact absurd ((hf.zero_iff b.1 b.1).mpr rfl) h
  · intro a b
    simp only [lexInt]
    by_cases h : f a.1 b.1 = 0
    · have h' : f b.1 a.1 = 0 := by rw [hf.neg]; omega
      rw [if_pos h, if_pos h']
      exact hg.neg a.2 b.2
    · have h' : ¬ f b.1 a.1 = 0 := by rw [hf.neg]; omega
      rw [if_neg h, if_neg h']
      exact hf.neg a.1 b.1
  · intro a b c hab hbc
    simp only [lexInt] at hab hbc ⊢
    by_cases h1 : f a.1 b.1 = 0
    · have e1 := (hf.zero_iff a.1 b.1).mp h1
      rw [if_pos h1] at hab
      by_cases h2 : f b.1 c.1 = 0
      · have e2 := (hf.zero_iff b.1 c.1).mp h2
        rw [if_pos h2] at hbc
        rw [if_pos ((hf.zero_iff a.1 c.1).mpr (e1.trans e2))]
        exact hg.lt_trans a.2 b.2 c.2 hab hbc
      · rw [if_neg h2] at hbc
        rw [e1, if_neg h2]
        exact hbc
    · rw [if_neg h1] at hab
      by_cases h2 : f b.1 c.1 = 0
      · have e2 := (hf.zero_iff b.1 c.1).mp h2
        rw [← e2, if_neg h1]
        exact hab
      · rw [if_neg h2] at hbc
        have h3 := hf.lt_trans a.1 b.1 c.1 hab hbc
        rw [if_neg (by omega : ¬ f a.1 c.1 = 0)]
        exact h3

theorem cmpNat_isCmp : IsCmp cmpNat := by
  constructor
  · intro a b; simp only [cmpNat]; split_ifs <;> simp
  · intro a b
    simp only [cmpNat]
    split_ifs with h1 h2 <;> norm_num <;> omega
  · intro a b; simp only [cmpNat]; split_ifs <;> omega
  · intro a b c hab hbc
    simp only [cmpNat] at hab hbc ⊢
    split_ifs at hab hbc ⊢ <;> omega

theorem cmpNat_lex_unfold (x y : Nat) (r : Int) :
    (if cmpNat x y = 0 then r else cmpNat x y) =
      if x < y then -1 else if y < x then 1 else r := by
  by_cases h1 : x < y
  · have h : cmpNat x y = -1 := by simp [cmpNat, h1]
    simp [h, h1]
  · by_cases h2 : y < x
    · have h : cmpNat x y = 1 := by simp [cmpNat, h1, h2]
      simp [h, h1, h2]
    · have h : cmpNat x y = 0 := by simp [cmpNat, h1, h2]
      simp [h, h1, h2]

theorem cmpVKey_eq_lex (a b : Nat × Nat × Nat × Option (List (Nat ⊕ List Char))) :
    cmpVKey a b = lexInt cmpNat (lexInt cmpNat (lexInt cmpNat cmpPreKey)) a b := by
  simp only [lexInt]
  rw [cmpNat_lex_unfold, cmpNat_lex_unfold, cmpNat_lex_unfold]
  rfl

theorem cmpVKey_isCmp : IsCmp cmpVKey := by
  have h := (cmpNat_isCmp.lex (cmpNat_isCmp.lex (cmpNat_isCmp.lex cmpPreKey_isCmp)))
  constructor
  · intro a b; rw [cmpVKey_eq_lex]; exact h.shape a b
  · intro a b; rw [cmpVKey_eq_lex]; exact h.zero_iff a b
  · intro a b; rw [cmpVKey_eq_lex, cmpVKey_eq_lex]; exact h.neg a b
  · intro a b c hab hbc
    rw [cmpVKey_eq_lex] at hab hbc ⊢
    exact h.lt_trans a b c hab hbc

/-! ### Compare agrees with the key comparison -/

theorem cmpIdent_eq_key (a b : List Char) : cmpIdent a b = cmpKey (identKey a) (identKey b) := by
  simp only [cmpIdent, identKey]
  cases parseUint64 a <;> cases parseUint64 b <;> rfl

theorem cmpPreParts_eq_keys :
    ∀ as bs : List (List Char),
      cmpPreParts as bs = cmpKeyList (as.map identKey) (bs.map identKey) := by
  intro as
  induction as with
  | nil => intro bs; cases bs <;> rfl
  | cons a as ih =>
    intro bs
    cases bs with
    | nil => rfl
    | cons b bs =>
      simp only [cmpPreParts, cmpKeyList, List.map_cons, cmpIdent_eq_key, ih bs]

theorem compare_eq_vkey (s other : SemVer) :
    SemVer.Compare s other = cmpVKey (vkey s) (vkey other) := by
  show SemVer.Compare s other =
    cmpVKey (s.Major, s.Minor, s.Patch, preKey s.PreRelease)
      (other.Major, other.Minor, other.Patch, preKey other.PreRelease)
  simp only [SemVer.Compare, cmpVKey]
  rcases Nat.lt_trichotomy s.Major other.Major with h | h | h
  · simp [h, asymm h]
  · simp only [h, lt_irrefl, if_neg (lt_irrefl other.Major), if_false]
    rcases Nat.lt_trichotomy s.Minor other.Minor with h2 | h2 | h2
    · simp [h2, asymm h2]
    · simp only [h2, lt_irrefl, if_false]
      rcases Nat.lt_trichotomy s.Patch other.Patch with h3 | h3 | h3
      · simp [h3, asymm h3]
      · simp only [h3, lt_irrefl, if_false]
        by_cases hs : s.PreRelease = [] <;> by_cases ho : other.PreRelease = []
        · simp [hs, ho, preKey, cmpPreKey]
        · simp [hs, ho, preKey, cmpPreKey]
        · simp [hs, ho, preKey, cmpPreKey]
        · simp only [hs, ho, preKey, if_neg hs, if_neg ho, cmpPreKey]
          simp only [ne_eq, hs, not_false_eq_true, ho, false_and, and_false, and_self,
            if_false]
          exact cmpPreParts_eq_keys _ _
      · simp [h3, asymm h3]
    · simp [h2, asymm h2]
  · simp [h, asymm h]

theorem isCmp_le_trans {α : Type} {f : α → α → Int} (hf : IsCmp f) (a b c : α)
    (h1 : f a b ≤ 0) (h2 : f b c ≤ 0) : f a c ≤ 0 := by
  rcases hf.shape a b with s1 | s1 | s1
  · rcases hf.shape b c with s2 | s2 | s2
    · have := hf.lt_trans a b c s1 s2
      omega
    · rw [(hf.zero_iff b c).mp s2] at s1
      omega
    · omega
  · rw [(hf.zero_iff a b).mp s1]
    exact h2
  · omega

theorem compare_shape (a b : SemVer) :
    SemVer.Compare a b = -1 ∨ SemVer.Compare a b = 0 ∨ SemVer.Compare a b = 1 := by
  rw [compare_eq_vkey]
  exact cmpVKey_isCmp.shape _ _

theorem compare_neg (a b : SemVer) : SemVer.Compare a b = -SemVer.Compare b a := by
  rw [compare_eq_vkey, compare_eq_vkey]
  exact cmpVKey_isCmp.neg _ _

theorem compare_le_trans {a b c : SemVer} (h1 : SemVer.Compare a b ≤ 0)
    (h2 : SemVer.Compare b c ≤ 0) : SemVer.Compare a c ≤ 0 := by
  rw [compare_eq_vkey] at h1 h2 ⊢
  exact isCmp_le_trans cmpVKey_isCmp _ _ _ h1 h2

theorem compare_eq_zero_of_fields {a b : SemVer} (h1 : a.Major = b.Major)
    (h2 : a.Minor = b.Minor) (h3 : a.Patch = b.Patch)
    (h4 : a.PreRelease = b.PreRelease) : SemVer.Compare a b = 0 := by
  rw [compare_eq_vkey]
  exact (cmpVKey_isCmp.zero_iff _ _).mpr (by simp [vkey, h1, h2, h3, h4])

/-! ### Helper lemmas for concrete comparisons -/

theorem isIdentChar_of_isDigitChar {c : Char} (h : isDigitChar c = true) :
    isIdentChar c = true := by
  simp only [isDigitChar, Bool.and_eq_true] at h
  simp [isIdentChar, h.1, h.2]

theorem all_digits_not_mem {s : List Char} (hd : s.all isDigitChar = true) {c : Char}
    (hc : isDigitChar c = false) : c ∉ s := by
  intro hmem
  rw [List.all_eq_true] at hd
  have := hd c hmem
  rw [hc] at this
  cases this

theorem cmpPreParts_single (a b : List Char) : cmpPreParts [a] [b] = cmpIdent a b := by
  simp only [cmpPreParts]
  split_ifs with h
  · exact h.symm
  · rfl

theorem compare_same_core_both_pre {M m pa : Nat} {p q b1 b2 : List Char}
    (hp : p ≠ []) (hq : q ≠ []) :
    SemVer.Compare ⟨M, m, pa, p, b1⟩ ⟨M, m, pa, q, b2⟩ =
      cmpPreParts (p.splitOn '.') (q.splitOn '.') := by
  simp only [SemVer.Compare]
  simp [hp, hq]

/-! ### The claims -/

/-- C1: the claim states that inputs with a trailing sigil and an empty
pre-release or build section, such as 1.2.3- and 1.2.3+, fail with an
EmptyIdentifier error.  The code instead accepts both silently: the section
validation of source lines 106 and 131 is guarded by a non-emptiness test on
the recorded field, so an empty section is never validated, and Parse returns
the plain version 1.2.3 with no error. -/
theorem c1_trailing_sigil_accepted :
    Parse (str "1.2.3-") = Except.ok ⟨1, 2, 3, [], []⟩ ∧
    Parse (str "1.2.3+") = Except.ok ⟨1, 2, 3, [], []⟩ ∧
    Parse (str "1.2.3-+") = Except.ok ⟨1, 2, 3, [], []⟩ :=
  ⟨rfl, rfl, rfl⟩

/-- C3: the claim states that every all-digit pre-release part with a leading
zero (other than 0 itself, of any length) fails with a LeadingZero error.  For
the 21-digit part 099999999999999999999 the value exceeds the 64-bit range, so
ParseUint fails, the leading-zero test of source line 116 is never reached, the
part falls into the alphanumeric branch of line 120 and is accepted. -/
theorem c3_long_leading_zero_accepted :
    Parse (str "1.2.3-099999999999999999999") =
      Except.ok ⟨1, 2, 3, str "099999999999999999999", []⟩ ∧
    (str "099999999999999999999").all isDigitChar = true ∧
    (str "099999999999999999999").head? = some '0' ∧
    str "099999999999999999999" ≠ ['0'] ∧
    2 ^ 64 ≤ decValue (str "099999999999999999999") :=
  ⟨rfl, by decide, rfl, by decide, by decide⟩

/-- C4: the claim states that two numeric identifiers of any length are
compared by their integer values.  The identifiers 100000000000000000000 and
99999999999999999999 are both numeric identifiers of the grammar (all digits,
no leading zero) and the first has the larger value, yet Compare returns -1:
both overflow ParseUint at source lines 208 and 209, so they are compared
byte-wise, where the byte 1 sorts before the byte 9. -/
theorem c4_numeric_overflow_compared_bytewise :
    SemVer.Compare ⟨1, 0, 0, str "100000000000000000000", []⟩
        ⟨1, 0, 0, str "99999999999999999999", []⟩ = -1 ∧
    isNumericIdent (str "100000000000000000000") = true ∧
    isNumericIdent (str "99999999999999999999") = true ∧
    decValue (str "99999999999999999999") < decValue (str "100000000000000000000") :=
  ⟨by decide, by decide, by decide, by decide⟩

/-- C7: Compare is transitive in the non-strict sense; if a compares at most
equal to b and b at most equal to c then a compares at most equal to c.
Proven for all SemVer values, hence in particular for all valid versions. -/
theorem c7_compare_transitive (a b c : SemVer) (h1 : SemVer.Compare a b ≤ 0)
    (h2 : SemVer.Compare b c ≤ 0) : SemVer.Compare a c ≤ 0 :=
  compare_le_trans h1 h2

theorem c7_compare_transitive_witness :
    SemVer.Compare ⟨1, 0, 0, str "alpha", []⟩ ⟨1, 0, 0, str "alpha.1", []⟩ ≤ 0 ∧
    SemVer.Compare ⟨1, 0, 0, str "alpha.1", []⟩ ⟨1, 0, 0, [], []⟩ ≤ 0 ∧
    SemVer.Compare ⟨1, 0, 0, str "alpha", []⟩ ⟨1, 0, 0, [], []⟩ ≤ 0 :=
  ⟨by decide, by decide,
    c7_compare_transitive ⟨1, 0, 0, str "alpha", []⟩ ⟨1, 0, 0, str "alpha.1", []⟩
      ⟨1, 0, 0, [], []⟩ (by decide) (by decide)⟩

/-- C8: Compare never consults build metadata.  First part: versions equal in
major, minor, patch and pre-release compare equal whatever their builds.
Second part: replacing the build fields of the two arguments by arbitrary
values never changes the result of Compare. -/
theorem c8_build_metadata_irrelevant :
    (∀ a b : SemVer, a.Major = b.Major → a.Minor = b.Minor → a.Patch = b.Patch →
        a.PreRelease = b.PreRelease → SemVer.Compare a b = 0) ∧
    (∀ (a b : SemVer) (x y : List Char),
        SemVer.Compare { a with Build := x } { b with Build := y } =
          SemVer.Compare a b) :=
  ⟨fun _ _ h1 h2 h3 h4 => compare_eq_zero_of_fields h1 h2 h3 h4,
   fun _ _ _ _ => rfl⟩

theorem c8_build_metadata_irrelevant_witness :
    SemVer.Compare ⟨1, 2, 3, str "alpha", str "x1"⟩ ⟨1, 2, 3, str "alpha", str "y2"⟩ = 0 :=
  c8_build_metadata_irrelevant.1 _ _ rfl rfl rfl rfl

/-- C9: Sort only permutes its input; the multiset of elements after sorting
is the multiset before.  Proven against the relational model of sort.Slice:
every output reachable by swaps carries the same multiset. -/
theorem c9_sort_permutes (l l' : List SemVer) (h : Sort' l l') :
    (l' : Multiset SemVer) = (l : Multiset SemVer) :=
  Multiset.coe_eq_coe.mpr (swapSeq_perm h.1).symm

theorem c9_sort_permutes_witness :
    Sort' [(⟨2, 0, 0, [], []⟩ : SemVer)] [⟨2, 0, 0, [], []⟩] ∧
    (([(⟨2, 0, 0, [], []⟩ : SemVer)] : List SemVer) : Multiset SemVer) =
      ([(⟨2, 0, 0, [], []⟩ : SemVer)] : List SemVer) :=
  ⟨⟨SwapSeq.refl _, List.chain'_singleton _⟩,
   c9_sort_permutes _ _ ⟨SwapSeq.refl _, List.chain'_singleton _⟩⟩

/-- C2 counterexample: under the contract of the unstable sorting primitive,
an input of two versions that differ only in build metadata (hence compare
equal) admits the reversed output, so the stability half of the claim fails:
the relative order of compare-equal elements is not preserved. -/
theorem c2_sort_stability_counterexample :
    Sort' [⟨1, 0, 0, [], str "b"⟩, ⟨1, 0, 0, [], str "a"⟩]
      [⟨1, 0, 0, [], str "a"⟩, ⟨1, 0, 0, [], str "b"⟩] ∧
    SemVer.Compare ⟨1, 0, 0, [], str "b"⟩ ⟨1, 0, 0, [], str "a"⟩ = 0 ∧
    (⟨1, 0, 0, [], str "b"⟩ : SemVer) ≠ ⟨1, 0, 0, [], str "a"⟩ := by
  refine ⟨⟨SwapSeq.swap _ 0 1 (by decide) (by decide) _ (SwapSeq.refl _), ?_⟩,
    by decide, by decide⟩
  rw [show ([⟨1, 0, 0, [], str "a"⟩, ⟨1, 0, 0, [], str "b"⟩] : List SemVer) =
    [⟨1, 0, 0, [], str "a"⟩] ++ [⟨1, 0, 0, [], str "b"⟩] from rfl]
  rw [List.chain'_append]
  refine ⟨List.chain'_singleton _, List.chain'_singleton _, ?_⟩
  intro x hx y hy
  simp at hx hy
  subst hx
  subst hy
  decide

/-- C2 amended: after Sort the output is sorted, every adjacent pair compares
at most equal, and the output is a permutation of the input; the preservation
of the relative order of compare-equal elements is not guaranteed, because the
underlying primitive is an unstable sort. -/
theorem c2_sort_sorted_and_permutes (l l' : List SemVer) (h : Sort' l l') :
    List.Chain' (fun a b => SemVer.Compare a b ≤ 0) l' ∧ List.Perm l l' := by
  refine ⟨List.Chain'.imp ?_ h.2, swapSeq_perm h.1⟩
  intro a b hab
  have hn := compare_neg a b
  have hs := compare_shape b a
  omega

theorem c2_sort_sorted_and_permutes_witness :
    Sort' [(⟨3, 0, 0, [], []⟩ : SemVer), ⟨4, 0, 0, [], []⟩]
      [⟨3, 0, 0, [], []⟩, ⟨4, 0, 0, [], []⟩] ∧
    List.Chain' (fun a b => SemVer.Compare a b ≤ 0)
      [(⟨3, 0, 0, [], []⟩ : SemVer), ⟨4, 0, 0, [], []⟩] := by
  have hsorted : Sort' [(⟨3, 0, 0, [], []⟩ : SemVer), ⟨4, 0, 0, [], []⟩]
      [⟨3, 0, 0, [], []⟩, ⟨4, 0, 0, [], []⟩] := by
    refine ⟨SwapSeq.refl _, ?_⟩
    rw [show ([⟨3, 0, 0, [], []⟩, ⟨4, 0, 0, [], []⟩] : List SemVer) =
      [⟨3, 0, 0, [], []⟩] ++ [⟨4, 0, 0, [], []⟩] from rfl, List.chain'_append]
    refine ⟨List.chain'_singleton _, List.chain'_singleton _, ?_⟩
    intro x hx y hy
    simp at hx hy
    subst hx
    subst hy
    decide
  exact ⟨hsorted, (c2_sort_sorted_and_permutes _ _ hsorted).1⟩

/-- C10: an all-digit pre-release identifier whose value exceeds the 64-bit
unsigned range is accepted by Parse (leading zero or not, since the
leading-zero test sits behind a successful ParseUint), is treated by Compare
as a non-numeric identifier that outranks every 64-bit-representable numeric
identifier, and is compared byte-wise against any other such identifier. -/
theorem c10_overflow_identifier (s t : List Char)
    (hs : s ≠ []) (hsd : s.all isDigitChar = true) (hso : 2 ^ 64 ≤ decValue s)
    (ht : t ≠ []) (htd : t.all isDigitChar = true) (hto : decValue t < 2 ^ 64) :
    Parse (str "1.2.3-" ++ s) = Except.ok ⟨1, 2, 3, s, []⟩ ∧
    SemVer.Compare ⟨1, 0, 0, s, []⟩ ⟨1, 0, 0, t, []⟩ = 1 ∧
    ∀ u : List Char, u ≠ [] → u.all isDigitChar = true → 2 ^ 64 ≤ decValue u →
      SemVer.Compare ⟨1, 0, 0, s, []⟩ ⟨1, 0, 0, u, []⟩ = cmpStr s u := by
  have hnum : parseUint64 s = none :=
    parseUint64_eq_none.mpr (Or.inr (Or.inr hso))
  have hdot : s.splitOn '.' = [s] :=
    splitOn_eq_single (all_digits_not_mem hsd (by decide))
  refine ⟨?_, ?_, ?_⟩
  · have hplus : splitFirst '+' (str "1.2.3-" ++ s) = none := by
      rw [splitFirst_eq_none]
      intro hmem
      rw [List.mem_append] at hmem
      rcases hmem with h | h
      · exact absurd h (by decide)
      · exact all_digits_not_mem hsd (by decide) h
    have hsplit : str "1.2.3-" ++ s = str "1.2.3" ++ '-' :: s := rfl
    have hminus : splitFirst '-' (str "1.2.3" ++ '-' :: s) = some (str "1.2.3", s) :=
      splitFirst_append (by decide)
    have hvp : versionPartOf (str "1.2.3-" ++ s) = str "1.2.3" ++ '-' :: s := by
      simp only [versionPartOf, hplus]
      exact hsplit
    have hcore : coreOf (str "1.2.3-" ++ s) = str "1.2.3" := by
      simp [coreOf, hvp, hminus]
    have hpre : preSecOf (str "1.2.3-" ++ s) = some s := by
      simp [preSecOf, hvp, hminus]
    have hbuild : buildSecOf (str "1.2.3-" ++ s) = none := by
      simp [buildSecOf, hplus]
    have hall : s.all isIdentChar = true := by
      rw [List.all_eq_true] at hsd ⊢
      intro c hc
      exact isIdentChar_of_isDigitChar (hsd c hc)
    have hval : validatePreParts (s.splitOn '.') = none := by
      rw [hdot]
      simp [validatePreParts, hs, hnum, hall]
    simp only [Parse, hcore, hpre, hbuild, hval]
    simp [hs, hval]
    rfl
  · have htnum : parseUint64 t = some (decValue t) :=
      parseUint64_eq_some.mpr ⟨ht, htd, hto, rfl⟩
    have htdot : t.splitOn '.' = [t] :=
      splitOn_eq_single (all_digits_not_mem htd (by decide))
    rw [compare_same_core_both_pre hs ht, hdot, htdot, cmpPreParts_single]
    simp [cmpIdent, hnum, htnum]
  · intro u hu hud huo
    have hunum : parseUint64 u = none :=
      parseUint64_eq_none.mpr (Or.inr (Or.inr huo))
    have hudot : u.splitOn '.' = [u] :=
      splitOn_eq_single (all_digits_not_mem hud (by decide))
    rw [compare_same_core_both_pre hs hu, hdot, hudot, cmpPreParts_single]
    simp [cmpIdent, hnum, hunum]

theorem c10_overflow_identifier_witness :
    (Parse (str "1.2.3-" ++ str "099999999999999999999") =
      Except.ok ⟨1, 2, 3, str "099999999999999999999", []⟩ ∧
    SemVer.Compare ⟨1, 0, 0, str "099999999999999999999", []⟩
        ⟨1, 0, 0, str "2", []⟩ = 1 ∧
    SemVer.Compare ⟨1, 0, 0, str "099999999999999999999", []⟩
        ⟨1, 0, 0, str "18446744073709551616", []⟩ =
      cmpStr (str "099999999999999999999") (str "18446744073709551616")) := by
  have h := c10_overflow_identifier (str "099999999999999999999") (str "2")
    (by decide) (by decide) (by decide) (by decide) (by decide) (by decide)
  exact ⟨h.1, h.2.1, h.2.2 (str "18446744073709551616") (by decide) (by decide) (by decide)⟩

/-! ### Validity and the inverse round trip -/

theorem isNumericIdent_spec {p : List Char} (h : isNumericIdent p = true) :
    p ≠ [] ∧ p.all isDigitChar = true ∧ (p = ['0'] ∨ p.head? ≠ some '0') := by
  simp only [isNumericIdent, Bool.and_eq_true, Bool.or_eq_true, Bool.not_eq_true',
    beq_iff_eq, List.isEmpty_eq_false, Bool.not_eq_true, ne_eq] at h
  refine ⟨?_, h.1.2, ?_⟩
  · exact h.1.1
  · rcases h.2 with h2 | h2
    · exact Or.inl h2
    · exact Or.inr (beq_eq_false_iff_ne.mp h2)

theorem isAlphanumIdent_spec {p : List Char} (h : isAlphanumIdent p = true) :
    p ≠ [] ∧ p.all isIdentChar = true ∧ ∃ c ∈ p, isDigitChar c = false := by
  simp only [isAlphanumIdent, Bool.and_eq_true, Bool.not_eq_true', List.isEmpty_eq_false,
    List.any_eq_true, ne_eq] at h
  exact ⟨h.1.1, h.1.2, h.2⟩

theorem isBuildIdent_spec {p : List Char} (h : isBuildIdent p = true) :
    p ≠ [] ∧ p.all isIdentChar = true := by
  simp only [isBuildIdent, Bool.and_eq_true, Bool.not_eq_true', List.isEmpty_eq_false,
    ne_eq] at h
  exact h

theorem orb_split {a b : Bool} (h : (a || b) = true) : a = true ∨ b = true := by
  rcases a <;> rcases b <;> simp_all

theorem exists_part_of_mem {x : Char} :
    ∀ {s : List Char} {c : Char}, c ∈ s → c ≠ x → ∃ p ∈ s.splitOn x, c ∈ p := by
  intro s
  induction s with
  | nil => intro c h; cases h
  | cons y ys ih =>
    intro c hmem hne
    have hsplit : (y :: ys).splitOn x =
        if (y == x) = true then [] :: ys.splitOn x
        else (ys.splitOn x).modifyHead (List.cons y) :=
      List.splitOnP_cons _ y ys
    rcases List.mem_cons.mp hmem with rfl | hmem2
    · rw [hsplit, if_neg (by simp [hne])]
      obtain ⟨q, qs, hq⟩ : ∃ q qs, ys.splitOn x = q :: qs := by
        cases h : ys.splitOn x with
        | nil => exact absurd h (List.splitOnP_ne_nil _ ys)
        | cons q qs => exact ⟨q, qs, rfl⟩
      rw [hq]
      exact ⟨c :: q, List.mem_cons_self _ _, List.mem_cons_self _ _⟩
    · obtain ⟨p, hp, hcp⟩ := ih hmem2 hne
      rw [hsplit]
      by_cases hyx : (y == x) = true
      · rw [if_pos hyx]
        exact ⟨p, List.mem_cons_of_mem _ hp, hcp⟩
      · rw [if_neg hyx]
        obtain ⟨q, qs, hq⟩ : ∃ q qs, ys.splitOn x = q :: qs := by
          cases h : ys.splitOn x with
          | nil => exact absurd h (List.splitOnP_ne_nil _ ys)
          | cons q qs => exact ⟨q, qs, rfl⟩
        rw [hq]
        rw [hq] at hp
        rcases List.mem_cons.mp hp with rfl | hp2
        · exact ⟨y :: p, List.mem_cons_self _ _, List.mem_cons_of_mem _ hcp⟩
        · exact ⟨p, List.mem_cons_of_mem _ hp2, hcp⟩

theorem valid_part_chars {p : List Char}
    (h : (isNumericIdent p || isAlphanumIdent p) = true) : p.all isIdentChar = true := by
  rcases orb_split h with h1 | h1
  · obtain ⟨_, hd, _⟩ := isNumericIdent_spec h1
    rw [List.all_eq_true] at hd ⊢
    intro c hc
    exact isIdentChar_of_isDigitChar (hd c hc)
  · exact (isAlphanumIdent_spec h1).2.1

theorem validatePreParts_none :
    ∀ {parts : List (List Char)},
      (∀ p ∈ parts, (isNumericIdent p || isAlphanumIdent p) = true) →
      validatePreParts parts = none := by
  intro parts
  induction parts with
  | nil => intro _; rfl
  | cons part rest ih =>
    intro h
    have hp := h part (List.mem_cons_self _ _)
    have hne : part ≠ [] := by
      rcases orb_split hp with h1 | h1
      · exact (isNumericIdent_spec h1).1
      · exact (isAlphanumIdent_spec h1).1
    have hrest := ih (fun q hq => h q (List.mem_cons_of_mem _ hq))
    simp only [validatePreParts, if_neg hne]
    cases hnum : parseUint64 part with
    | some v =>
      have hdig := (parseUint64_eq_some.mp hnum).2.1
      have hlz : ¬(part ≠ ['0'] ∧ part.head? = some '0') := by
        rcases orb_split hp with h1 | h1
        · rcases (isNumericIdent_spec h1).2.2 with h2 | h2
          · intro hc; exact hc.1 h2
          · intro hc; exact h2 hc.2
        · obtain ⟨_, _, c, hc, hcd⟩ := isAlphanumIdent_spec h1
          rw [List.all_eq_true] at hdig
          have := hdig c hc
          rw [hcd] at this
          cases this
      rw [if_neg hlz]
      exact hrest
    | none =>
      rw [if_pos (valid_part_chars hp)]
      exact hrest

theorem validateBuildParts_none :
    ∀ {parts : List (List Char)},
      (∀ p ∈ parts, isBuildIdent p = true) → validateBuildParts parts = none := by
  intro parts
  induction parts with
  | nil => intro _; rfl
  | cons part rest ih =>
    intro h
    obtain ⟨hne, hchars⟩ := isBuildIdent_spec (h part (List.mem_cons_self _ _))
    simp only [validateBuildParts, if_neg hne, hchars, if_true]
    exact ih (fun q hq => h q (List.mem_cons_of_mem _ hq))

theorem not_mem_of_valid_pre {pre : List Char} {c : Char}
    (hv : ∀ p ∈ pre.splitOn '.', (isNumericIdent p || isAlphanumIdent p) = true)
    (hc : isIdentChar c = false) (hcd : c ≠ '.') : c ∉ pre := by
  intro hmem
  obtain ⟨p, hp, hcp⟩ := exists_part_of_mem hmem hcd
  have hall := valid_part_chars (hv p hp)
  rw [List.all_eq_true] at hall
  have := hall c hcp
  rw [hc] at this
  cases this

theorem not_mem_of_valid_build {bld : List Char} {c : Char}
    (hv : ∀ p ∈ bld.splitOn '.', isBuildIdent p = true)
    (hc : isIdentChar c = false) (hcd : c ≠ '.') : c ∉ bld := by
  intro hmem
  obtain ⟨p, hp, hcp⟩ := exists_part_of_mem hmem hcd
  have hall := (isBuildIdent_spec (hv p hp)).2
  rw [List.all_eq_true] at hall
  have := hall c hcp
  rw [hc] at this
  cases this

theorem natToDec_no_leading_zero (n : Nat) :
    ¬(natToDec n ≠ ['0'] ∧ (natToDec n).head? = some '0') := by
  rcases eq_or_ne n 0 with rfl | hn
  · rw [show natToDec 0 = ['0'] from rfl]
    simp
  · intro h
    exact natToDec_head_ne_zero n hn h.2

theorem splitOn_core (M m p : Nat) :
    (natToDec M ++ '.' :: (natToDec m ++ '.' :: natToDec p)).splitOn '.' =
      [natToDec M, natToDec m, natToDec p] := by
  rw [splitOn_append_cons (all_digits_not_mem (natToDec_all_digits M) (by decide)),
    splitOn_append_cons (all_digits_not_mem (natToDec_all_digits m) (by decide)),
    splitOn_eq_single (all_digits_not_mem (natToDec_all_digits p) (by decide))]

theorem parseCore_render {M m p : Nat} (hM : M < 2 ^ 64) (hm : m < 2 ^ 64)
    (hp : p < 2 ^ 64) :
    parseCore (natToDec M ++ '.' :: (natToDec m ++ '.' :: natToDec p)) =
      Except.ok (M, m, p) := by
  unfold parseCore
  rw [splitOn_core]
  simp only [parseUint64_natToDec hM, parseUint64_natToDec hm, parseUint64_natToDec hp]
  rw [if_neg (natToDec_no_leading_zero M), if_neg (natToDec_no_leading_zero m),
    if_neg (natToDec_no_leading_zero p)]

theorem mem_core {M m p : Nat} {c : Char}
    (hc : c ∈ natToDec M ++ '.' :: (natToDec m ++ '.' :: natToDec p)) :
    isDigitChar c = true ∨ c = '.' := by
  simp only [List.mem_append, List.mem_cons] at hc
  have hM := natToDec_all_digits M
  have hm := natToDec_all_digits m
  have hp := natToDec_all_digits p
  rw [List.all_eq_true] at hM hm hp
  rcases hc with h | h | h | h | h
  · exact Or.inl (hM c h)
  · exact Or.inr h
  · exact Or.inl (hm c h)
  · exact Or.inr h
  · exact Or.inl (hp c h)

/-- C6: parsing the rendering of any structurally valid version value (fields
satisfying the data-model invariants of spec section 3) yields the value back
with no error. -/
theorem c6_parse_render_roundtrip (v : SemVer) (hv : ValidSemVer v) :
    Parse (SemVer.String v) = Except.ok v := by
  obtain ⟨M, m, p, pre, bld⟩ := v
  obtain ⟨hM, hm, hp, hpre, hbld⟩ := hv
  simp only at hM hm hp hpre hbld
  have hplusA : '+' ∉ natToDec M ++ '.' :: (natToDec m ++ '.' :: natToDec p) := by
    intro h
    rcases mem_core h with h1 | h1
    · exact absurd h1 (by decide)
    · exact absurd h1 (by decide)
  have hminusA : '-' ∉ natToDec M ++ '.' :: (natToDec m ++ '.' :: natToDec p) := by
    intro h
    rcases mem_core h with h1 | h1
    · exact absurd h1 (by decide)
    · exact absurd h1 (by decide)
  have hcoreP := parseCore_render hM hm hp
  by_cases hpe : pre = [] <;> by_cases hbe : bld = []
  · -- no pre-release, no build
    subst hpe hbe
    have hstr : SemVer.String ⟨M, m, p, [], []⟩ =
        natToDec M ++ '.' :: (natToDec m ++ '.' :: natToDec p) := by
      simp [SemVer.String]
    rw [hstr]
    have h1 : splitFirst '+' (natToDec M ++ '.' :: (natToDec m ++ '.' :: natToDec p)) = none :=
      splitFirst_eq_none.mpr hplusA
    have hvp : versionPartOf (natToDec M ++ '.' :: (natToDec m ++ '.' :: natToDec p)) =
        natToDec M ++ '.' :: (natToDec m ++ '.' :: natToDec p) := by
      simp only [versionPartOf, h1]
    have h2 : splitFirst '-' (natToDec M ++ '.' :: (natToDec m ++ '.' :: natToDec p)) = none :=
      splitFirst_eq_none.mpr hminusA
    have hco : coreOf (natToDec M ++ '.' :: (natToDec m ++ '.' :: natToDec p)) =
        natToDec M ++ '.' :: (natToDec m ++ '.' :: natToDec p) := by
      simp only [coreOf, hvp, h2]
    have hps : preSecOf (natToDec M ++ '.' :: (natToDec m ++ '.' :: natToDec p)) = none := by
      simp only [preSecOf, hvp, h2, Option.map_none']
    have hbs : buildSecOf (natToDec M ++ '.' :: (natToDec m ++ '.' :: natToDec p)) = none := by
      simp only [buildSecOf, h1, Option.map_none']
    simp only [Parse, hco, hps, hbs, hcoreP, Option.getD_none]
    simp
  · -- no pre-release, build present
    subst hpe
    have hstr : SemVer.String ⟨M, m, p, [], bld⟩ =
        (natToDec M ++ '.' :: (natToDec m ++ '.' :: natToDec p)) ++ '+' :: bld := by
      simp [SemVer.String, hbe]
    rw [hstr]
    have h1 : splitFirst '+'
        ((natToDec M ++ '.' :: (natToDec m ++ '.' :: natToDec p)) ++ '+' :: bld) =
        some (natToDec M ++ '.' :: (natToDec m ++ '.' :: natToDec p), bld) :=
      splitFirst_append hplusA
    have hvp : versionPartOf
        ((natToDec M ++ '.' :: (natToDec m ++ '.' :: natToDec p)) ++ '+' :: bld) =
        natToDec M ++ '.' :: (natToDec m ++ '.' :: natToDec p) := by
      simp only [versionPartOf, h1]
    have h2 : splitFirst '-' (natToDec M ++ '.' :: (natToDec m ++ '.' :: natToDec p)) = none :=
      splitFirst_eq_none.mpr hminusA
    have hco : coreOf
        ((natToDec M ++ '.' :: (natToDec m ++ '.' :: natToDec p)) ++ '+' :: bld) =
        natToDec M ++ '.' :: (natToDec m ++ '.' :: natToDec p) := by
      simp only [coreOf, hvp, h2]
    have hps : preSecOf
        ((natToDec M ++ '.' :: (natToDec m ++ '.' :: natToDec p)) ++ '+' :: bld) = none := by
      simp only [preSecOf, hvp, h2, Option.map_none']
    have hbs : buildSecOf
        ((natToDec M ++ '.' :: (natToDec m ++ '.' :: natToDec p)) ++ '+' :: bld) =
        some bld := by
      simp only [buildSecOf, h1, Option.map_some']
    have hbv : validateBuildParts (bld.splitOn '.') = none :=
      validateBuildParts_none (by
        rcases hbld with h | h
        · exact absurd h hbe
        · exact h)
    simp only [Parse, hco, hps, hbs, hcoreP, Option.getD_none, Option.getD_some]
    simp [hbe, hbv]
  · -- pre-release present, no build
    subst hbe
    have hvpre : ∀ q ∈ pre.splitOn '.', (isNumericIdent q || isAlphanumIdent q) = true := by
      rcases hpre with h | h
      · exact absurd h hpe
      · exact h
    have hplusP : '+' ∉ pre := not_mem_of_valid_pre hvpre (by decide) (by decide)
    have hstr : SemVer.String ⟨M, m, p, pre, []⟩ =
        (natToDec M ++ '.' :: (natToDec m ++ '.' :: natToDec p)) ++ '-' :: pre := by
      simp [SemVer.String, hpe]
    rw [hstr]
    have h1 : splitFirst '+'
        ((natToDec M ++ '.' :: (natToDec m ++ '.' :: natToDec p)) ++ '-' :: pre) = none := by
      rw [splitFirst_eq_none]
      intro hmem
      rw [List.mem_append, List.mem_cons] at hmem
      rcases hmem with h | h | h
      · exact hplusA h
      · exact absurd h (by decide)
      · exact hplusP h
    have hvp : versionPartOf
        ((natToDec M ++ '.' :: (natToDec m ++ '.' :: natToDec p)) ++ '-' :: pre) =
        (natToDec M ++ '.' :: (natToDec m ++ '.' :: natToDec p)) ++ '-' :: pre := by
      simp only [versionPartOf, h1]
    have h2 : splitFirst '-'
        ((natToDec M ++ '.' :: (natToDec m ++ '.' :: natToDec p)) ++ '-' :: pre) =
        some (natToDec M ++ '.' :: (natToDec m ++ '.' :: natToDec p), pre) :=
      splitFirst_append hminusA
    have hco : coreOf
        ((natToDec M ++ '.' :: (natToDec m ++ '.' :: natToDec p)) ++ '-' :: pre) =
        natToDec M ++ '.' :: (natToDec m ++ '.' :: natToDec p) := by
      simp only [coreOf, hvp, h2]
    have hps : preSecOf
        ((natToDec M ++ '.' :: (natToDec m ++ '.' :: natToDec p)) ++ '-' :: pre) =
        some pre := by
      simp only [preSecOf, hvp, h2, Option.map_some']
    have hbs : buildSecOf
        ((natToDec M ++ '.' :: (natToDec m ++ '.' :: natToDec p)) ++ '-' :: pre) = none := by
      simp only [buildSecOf, h1, Option.map_none']
    have hpv : validatePreParts (pre.splitOn '.') = none := validatePreParts_none hvpre
    simp only [Parse, hco, hps, hbs, hcoreP, Option.getD_none, Option.getD_some]
    simp [hpe, hpv]
  · -- pre-release and build present
    have hvpre : ∀ q ∈ pre.splitOn '.', (isNumericIdent q || isAlphanumIdent q) = true := by
      rcases hpre with h | h
      · exact absurd h hpe
      · exact h
    have hvbld : ∀ q ∈ bld.splitOn '.', isBuildIdent q = true := by
      rcases hbld with h | h
      · exact absurd h hbe
      · exact h
    have hplusP : '+' ∉ pre := not_mem_of_valid_pre hvpre (by decide) (by decide)
    have hstr : SemVer.String ⟨M, m, p, pre, bld⟩ =
        ((natToDec M ++ '.' :: (natToDec m ++ '.' :: natToDec p)) ++ '-' :: pre)
          ++ '+' :: bld := by
      simp [SemVer.String, hpe, hbe]
    rw [hstr]
    have h1 : splitFirst '+'
        (((natToDec M ++ '.' :: (natToDec m ++ '.' :: natToDec p)) ++ '-' :: pre)
          ++ '+' :: bld) =
        some ((natToDec M ++ '.' :: (natToDec m ++ '.' :: natToDec p)) ++ '-' :: pre, bld) := by
      apply splitFirst_append
      intro hmem
      rw [List.mem_append, List.mem_cons] at hmem
      rcases hmem with h | h | h
      · exact hplusA h
      · exact absurd h (by decide)
      · exact hplusP h
    have hvp : versionPartOf
        (((natToDec M ++ '.' :: (natToDec m ++ '.' :: natToDec p)) ++ '-' :: pre)
          ++ '+' :: bld) =
        (natToDec M ++ '.' :: (natToDec m ++ '.' :: natToDec p)) ++ '-' :: pre := by
      simp only [versionPartOf, h1]
    have h2 : splitFirst '-'
        ((natToDec M ++ '.' :: (natToDec m ++ '.' :: natToDec p)) ++ '-' :: pre) =
        some (natToDec M ++ '.' :: (natToDec m ++ '.' :: natToDec p), pre) :=
      splitFirst_append hminusA
    have hco : coreOf
        (((natToDec M ++ '.' :: (natToDec m ++ '.' :: natToDec p)) ++ '-' :: pre)
          ++ '+' :: bld) =
        natToDec M ++ '.' :: (natToDec m ++ '.' :: natToDec p) := by
      simp only [coreOf, hvp, h2]
    have hps : preSecOf
        (((natToDec M ++ '.' :: (natToDec m ++ '.' :: natToDec p)) ++ '-' :: pre)
          ++ '+' :: bld) = some pre := by
      simp only [preSecOf, hvp, h2, Option.map_some']
    have hbs : buildSecOf
        (((natToDec M ++ '.' :: (natToDec m ++ '.' :: natToDec p)) ++ '-' :: pre)
          ++ '+' :: bld) = some bld := by
      simp only [buildSecOf, h1, Option.map_some']
    have hpv : validatePreParts (pre.splitOn '.') = none := validatePreParts_none hvpre
    have hbv : validateBuildParts (bld.splitOn '.') = none := validateBuildParts_none hvbld
    simp only [Parse, hco, hps, hbs, hcoreP, Option.getD_some]
    simp [hpe, hbe, hpv, hbv]

theorem c6_parse_render_roundtrip_witness :
    ValidSemVer ⟨1, 2, 3, str "alpha.1", str "build.123"⟩ ∧
    Parse (SemVer.String ⟨1, 2, 3, str "alpha.1", str "build.123"⟩) =
      Except.ok ⟨1, 2, 3, str "alpha.1", str "build.123"⟩ :=
  ⟨by unfold ValidSemVer; decide, c6_parse_render_roundtrip _ (by unfold ValidSemVer; decide)⟩

/-! ### The accepted-input round trip -/

theorem parseCore_ok_inv {core : List Char} {M m p : Nat}
    (h : parseCore core = Except.ok (M, m, p)) :
    ∃ p0 p1 p2, core.splitOn '.' = [p0, p1, p2] ∧
      natToDec M = p0 ∧ natToDec m = p1 ∧ natToDec p = p2 := by
  unfold parseCore at h
  split at h
  · rename_i p0 p1 p2 heq
    split at h
    · exact absurd h (by simp)
    · rename_i a h0
      split at h
      · exact absurd h (by simp)
      · rename_i b h1
        split at h
        · exact absurd h (by simp)
        · rename_i c h2
          split at h
          · exact absurd h (by simp)
          · rename_i hz0
            split at h
            · exact absurd h (by simp)
            · rename_i hz1
              split at h
              · exact absurd h (by simp)
              · rename_i hz2
                injection h with h'
                obtain ⟨rfl, rfl, rfl⟩ : a = M ∧ b = m ∧ c = p := by
                  refine ⟨congrArg Prod.fst h', ?_, ?_⟩
                  · have := congrArg (fun q => q.2.1) h'
                    simpa using this
                  · have := congrArg (fun q => q.2.2) h'
                    simpa using this
                exact ⟨p0, p1, p2, heq, natToDec_of_parsed h0 hz0,
                  natToDec_of_parsed h1 hz1, natToDec_of_parsed h2 hz2⟩
  · exact absurd h (by simp)

theorem Parse_ok_inv {t : List Char} {v : SemVer} (h : Parse t = Except.ok v) :
    parseCore (coreOf t) = Except.ok (v.Major, v.Minor, v.Patch) ∧
    v.PreRelease = (preSecOf t).getD [] ∧ v.Build = (buildSecOf t).getD [] := by
  simp only [Parse] at h
  split at h
  · exact absurd h (by simp)
  · rename_i major minor patch heq
    split at h
    · exact absurd h (by simp)
    · split at h
      · exact absurd h (by simp)
      · injection h with h'
        refine ⟨?_, ?_, ?_⟩ <;> rw [← h']
        exact heq

/-- C5 counterexample: the input 1.2.3- is accepted by Parse (its empty
pre-release section is never validated), yet rendering the parsed value gives
1.2.3, not the original text, so the round trip fails on an accepted input. -/
theorem c5_roundtrip_counterexample :
    Parse (str "1.2.3-") = Except.ok ⟨1, 2, 3, [], []⟩ ∧
    SemVer.String ⟨1, 2, 3, [], []⟩ ≠ str "1.2.3-" :=
  ⟨rfl, by decide⟩

/-- C5 amended: for every textual version t accepted by Parse in which no
sigil is followed by an empty section (the build section, when a plus is
present, is non-empty, and the pre-release section, when a hyphen is present
in the part before the first plus, is non-empty), rendering the parsed value
reproduces t exactly. -/
theorem c5_render_parse_roundtrip (t : List Char) (v : SemVer)
    (h : Parse t = Except.ok v)
    (hb : buildSecOf t ≠ some []) (hp : preSecOf t ≠ some []) :
    SemVer.String v = t := by
  obtain ⟨hcore, hpreF, hbldF⟩ := Parse_ok_inv h
  obtain ⟨p0, p1, p2, hsp, hd0, hd1, hd2⟩ := parseCore_ok_inv hcore
  have hinter : ['.'].intercalate ((coreOf t).splitOn '.') = coreOf t :=
    List.intercalate_splitOn (coreOf t) '.'
  rw [hsp, intercalate_three] at hinter
  have hstr : SemVer.String v =
      (natToDec v.Major ++ '.' :: (natToDec v.Minor ++ '.' :: natToDec v.Patch))
      ++ ((if v.PreRelease ≠ [] then '-' :: v.PreRelease else [])
      ++ (if v.Build ≠ [] then '+' :: v.Build else [])) := by
    simp [SemVer.String, List.append_assoc]
  rw [hstr, hd0, hd1, hd2, hinter]
  cases hminus : splitFirst '-' (versionPartOf t) with
  | none =>
    have hco : coreOf t = versionPartOf t := by simp only [coreOf, hminus]
    have hps : preSecOf t = none := by simp only [preSecOf, hminus]; rfl
    rw [hps] at hpreF
    have hpre0 : v.PreRelease = [] := by simpa using hpreF
    rw [if_neg (by simp [hpre0])]
    cases hplus : splitFirst '+' t with
    | none =>
      have hvp : versionPartOf t = t := by simp only [versionPartOf, hplus]
      have hbs : buildSecOf t = none := by simp only [buildSecOf, hplus]; rfl
      rw [hbs] at hbldF
      have hbld0 : v.Build = [] := by simpa using hbldF
      rw [if_neg (by simp [hbld0])]
      rw [hco, hvp]
      simp
    | some q =>
      obtain ⟨vp, b⟩ := q
      have hvp : versionPartOf t = vp := by simp only [versionPartOf, hplus]
      have hbs : buildSecOf t = some b := by simp only [buildSecOf, hplus]; rfl
      rw [hbs] at hbldF
      have hbne : b ≠ [] := by
        intro hb0
        exact hb (by rw [hbs, hb0])
      have hbld : v.Build = b := by simpa using hbldF
      have ht := (splitFirst_eq_some hplus).1
      rw [if_pos (by simp [hbld, hbne]), hbld, hco, hvp, ht]
      simp
  | some q =>
    obtain ⟨cr, r⟩ := q
    have hco : coreOf t = cr := by simp only [coreOf, hminus]
    have hps : preSecOf t = some r := by simp only [preSecOf, hminus]; rfl
    rw [hps] at hpreF
    have hrne : r ≠ [] := by
      intro hr0
      exact hp (by rw [hps, hr0])
    have hpre : v.PreRelease = r := by simpa using hpreF
    have hvpr := (splitFirst_eq_some hminus).1
    rw [if_pos (by simp [hpre, hrne]), hpre]
    cases hplus : splitFirst '+' t with
    | none =>
      have hvp : versionPartOf t = t := by simp only [versionPartOf, hplus]
      have hbs : buildSecOf t = none := by simp only [buildSecOf, hplus]; rfl
      rw [hbs] at hbldF
      have hbld0 : v.Build = [] := by simpa using hbldF
      rw [if_neg (by simp [hbld0]), hco]
      rw [hvp] at hvpr
      simp only [List.append_nil]
      exact hvpr.symm
    | some q2 =>
      obtain ⟨vp, b⟩ := q2
      have hvp : versionPartOf t = vp := by simp only [versionPartOf, hplus]
      have hbs : buildSecOf t = some b := by simp only [buildSecOf, hplus]; rfl
      rw [hbs] at hbldF
      have hbne : b ≠ [] := by
        intro hb0
        exact hb (by rw [hbs, hb0])
      have hbld : v.Build = b := by simpa using hbldF
      have ht := (splitFirst_eq_some hplus).1
      rw [if_pos (by simp [hbld, hbne]), hbld, hco]
      rw [hvp] at hvpr
      rw [ht, hvpr]
      simp

theorem c5_render_parse_roundtrip_witness :
    Parse (str "1.2.3-alpha.1+build.123") =
      Except.ok ⟨1, 2, 3, str "alpha.1", str "build.123"⟩ ∧
    buildSecOf (str "1.2.3-alpha.1+build.123") ≠ some [] ∧
    preSecOf (str "1.2.3-alpha.1+build.123") ≠ some [] ∧
    SemVer.String ⟨1, 2, 3, str "alpha.1", str "build.123"⟩ =
      str "1.2.3-alpha.1+build.123" :=
  ⟨rfl, by decide, by decide,
    c5_render_parse_roundtrip _ _ rfl (by decide) (by decide)⟩
